import Mathlib

/-!
Verification of the doxxo documentation generator.

Shallow embedding of the doxxo core (path resolution, output mapping,
section splitting, title derivation, render frame and pipeline ordering)
together with proofs of the specification claims.

The JavaScript module is translated function by function.  External npm
packages (node's `path`, `commondir`, `dox`, `marked`, `highlight.js`,
the underscore template) are not part of the repository; `path` is
implemented here following POSIX path semantics, `commondir` is modelled
from the spec, and `dox` / `marked` / `highlight.js` / the template are
abstract function parameters.
-/

namespace Doxxo

/-! ## Character and string helpers

JavaScript string primitives (`substr`, `split`, `trim`, `join`) are
implemented over `List Char` so that every operation is a structural
recursion that the kernel can evaluate.
-/

/-- JS `s.substr(0, n)`: the first `n` characters. -/
def strTake (s : String) (n : Nat) : String :=
  String.mk (s.toList.take n)

/-- JS `s.substr(n)`: drop the first `n` characters. -/
def strDrop (s : String) (n : Nat) : String :=
  String.mk (s.toList.drop n)

/-- Split a character list on a separator character (JS `String.split`). -/
def chSplit (sep : Char) : List Char → List (List Char)
  | [] => [[]]
  | c :: rest =>
    let r := chSplit sep rest
    if c = sep then [] :: r
    else
      match r with
      | hd :: tl => (c :: hd) :: tl
      | [] => [[c]]

/-- JS `s.split(sep)` for a one-character separator. -/
def strSplit (s : String) (sep : Char) : List String :=
  (chSplit sep s.toList).map String.mk

/-- Join a list of strings with a separator (JS `Array.join`). -/
def strJoin (sep : String) : List String → String
  | [] => ""
  | [x] => x
  | x :: xs => x ++ sep ++ strJoin sep xs

/-- Whether `p` is a leading run of `s` (JS `s.substr(0, p.length) === p`). -/
def strStarts (s p : String) : Bool :=
  strTake s p.toList.length = p

/-- JS `String.trim`: remove leading and trailing whitespace. -/
def strTrim (s : String) : String :=
  String.mk (((s.toList.dropWhile Char.isWhitespace).reverse.dropWhile
    Char.isWhitespace).reverse)

/-- JS `code.replace(/\s+$/, '')`: remove trailing whitespace. -/
def strTrimEnd (s : String) : String :=
  String.mk ((s.toList.reverse.dropWhile Char.isWhitespace).reverse)

/-! ## POSIX path semantics (node's `path` module) -/

/-- Resolution of `.` and `..` segments performed by `path.normalize`.
`acc` holds the already-emitted segments in reverse order. -/
def normSegsAux (isAbs : Bool) : List String → List String → List String
  | acc, [] => acc.reverse
  | acc, seg :: rest =>
    if seg = "" ∨ seg = "." then normSegsAux isAbs acc rest
    else if seg = ".." then
      match acc with
      | [] => if isAbs then normSegsAux isAbs [] rest
              else normSegsAux isAbs [".."] rest
      | top :: acc' =>
        if top = ".." then normSegsAux isAbs (".." :: top :: acc') rest
        else normSegsAux isAbs acc' rest
    else normSegsAux isAbs (seg :: acc) rest

/-- The cleaned segment list of a path string. -/
def pathSegs (p : String) : List String :=
  normSegsAux (strStarts p "/") [] (strSplit p '/')

/-- node `path.normalize` (POSIX, trailing slashes dropped). -/
def pathNormalize (p : String) : String :=
  let isAbs := strStarts p "/"
  let segs := pathSegs p
  if isAbs then "/" ++ strJoin "/" segs
  else if segs.isEmpty then "." else strJoin "/" segs

/-- node `path.resolve(cwd, p)` where `cwd` is an absolute directory. -/
def pathResolve (cwd p : String) : String :=
  if strStarts p "/" then pathNormalize p
  else pathNormalize (cwd ++ "/" ++ p)

/-- node `path.join(a, b)`. -/
def pathJoin (a b : String) : String :=
  pathNormalize (a ++ "/" ++ b)

/-- node `path.basename`: the last nonempty segment of the raw path. -/
def basename (p : String) : String :=
  (((strSplit p '/').filter (fun s => s ≠ "")).getLast?).getD ""

/-- All but the last nonempty raw segment of a path. -/
def dirSegs (p : String) : List String :=
  ((strSplit p '/').filter (fun s => s ≠ "")).dropLast

/-- node `path.dirname` (for the normalized paths this development feeds it). -/
def pathDirname (p : String) : String :=
  if strStarts p "/" then "/" ++ strJoin "/" (dirSegs p)
  else
    let ds := dirSegs p
    if ds.isEmpty then "." else strJoin "/" ds

/-- Index of the final `'.'` in a name (last occurrence). -/
def lastDot (cs : List Char) : Option Nat :=
  ((cs.enum.filter (fun pr => pr.2 = '.')).map (fun pr => pr.1)).getLast?

/-- node `path.extname`: substring of the basename from its last dot,
empty when the dot is the first character or absent. -/
def extname (p : String) : String :=
  let cs := (basename p).toList
  match lastDot cs with
  | some k => if k = 0 then "" else String.mk (cs.drop k)
  | none => ""

/-! ## Filesystem model

A snapshot of the filesystem: regular files carry their text content,
directories carry an ordered listing.  `statSync` / `readdirSync` /
`readFile` become lookups in this tree.
-/

inductive FsEntry where
  | file (content : String)
  | dir (children : List (String × FsEntry))

/-- Walk a segment list down the tree. -/
def lookupSegs : FsEntry → List String → Option FsEntry
  | e, [] => some e
  | .file _, _ :: _ => none
  | .dir es, s :: rest =>
    match (es.find? (fun pr => pr.1 = s)).map (fun pr => pr.2) with
    | some e => lookupSegs e rest
    | none => none

/-- `fs.statSync` on an absolute path string: `none` models ENOENT. -/
def lookupFs (fs : FsEntry) (p : String) : Option FsEntry :=
  lookupSegs fs ((strSplit p '/').filter (fun s => s ≠ ""))

/-- `fs.readFileAsync(p, "utf-8")`. -/
def readFile (fs : FsEntry) (p : String) : Option String :=
  match lookupFs fs p with
  | some (.file c) => some c
  | _ => none

/-- Errors surfaced by the embedded pipeline. -/
inductive Err where
  | pathNotFound   -- statSync throws ENOENT
  | outOfFuel      -- directory traversal did not terminate within the bound
  | noPaths        -- commondir crashes on an empty path collection
  | noSources      -- "No valid sources provided."
  | readFailed     -- readFileAsync failed
  deriving DecidableEq

/-! ## `Doxxo.cleanPaths`

JS objects used as string-keyed maps preserve insertion order, and
assignment to an existing key overwrites the value in place.
-/

/-- `memo[fpath] = src` on a JS object. -/
def objSet (m : List (String × String)) (k v : String) :
    List (String × String) :=
  if m.any (fun pr => pr.1 = k) then
    m.map (fun pr => if pr.1 = k then (k, v) else pr)
  else m ++ [(k, v)]

/-- One pending path of the traversal.  Entries produced by
`readdirSync` are materialized together with their tree node (`known`),
since a just-listed child always stats successfully; top-level user
inputs carry `known = none` and must be looked up.  `strip` is the
prefix argument of the recursive call that scheduled the item
(`none` on the first run). -/
structure WItem where
  src : String
  known : Option FsEntry
  strip : Option String

/-- The body of `Doxxo.cleanPaths` as a fuel-bounded worklist reduction.
The fuel only bounds the number of reduction steps: the JS original can
genuinely diverge on a pathological directory listing (an entry named
`"."` re-lists the same directory), which surfaces here as
`Err.outOfFuel`. -/
def cleanPathsW (fs : FsEntry) (cwd : String) (deep : Bool) :
    Nat → List WItem → List (String × String) →
    Except Err (List (String × String))
  | _, [], memo => .ok memo
  | 0, _ :: _, _ => .error .outOfFuel
  | fuel + 1, it :: rest, memo =>
    -- src = path.normalize(src); fpath = path.resolve(src)
    let src := pathNormalize it.src
    let fpath := pathResolve cwd src
    match it.known.or (lookupFs fs fpath) with
    | none => .error .pathNotFound
    | some (.file _) =>
      -- first run: display name is the basename; recursive descent:
      -- strip the originating directory and any leading slashes
      let name :=
        match it.strip with
        | none => basename src
        | some strip =>
          if strTake src strip.toList.length = strip then
            String.mk ((strDrop src strip.toList.length).toList.dropWhile
              (fun c => c = '/'))
          else src
      cleanPathsW fs cwd deep fuel rest (objSet memo fpath name)
    | some (.dir entries) =>
      -- only traverse into a directory on the first run or when deep
      if it.strip = none ∨ deep then
        match cleanPathsW fs cwd deep fuel
            (entries.map (fun e =>
              ⟨pathJoin src e.1, some e.2, some (it.strip.getD src)⟩))
            memo with
        | .error e => .error e
        | .ok memo' => cleanPathsW fs cwd deep fuel rest memo'
      else cleanPathsW fs cwd deep fuel rest memo

/-- `Doxxo.cleanPaths(paths, deep)` (part_002 lines 211–241). -/
def cleanPaths (fs : FsEntry) (cwd : String) (fuel : Nat)
    (paths : List String) (deep : Bool) :
    Except Err (List (String × String)) :=
  cleanPathsW fs cwd deep fuel (paths.map (fun p => ⟨p, none, none⟩)) []

/-! ## `Doxxo.resolveSources` -/

/-- Longest common prefix of two segment lists. -/
def commonPrefixSegs : List String → List String → List String
  | a :: as, b :: bs => if a = b then a :: commonPrefixSegs as bs else []
  | _, _ => []

/-- Modelled from the spec: the external `commondir` package, called as
`commondir("/", values)`.  Per the spec it "computes the longest common
directory prefix across all display names' resolved absolute forms";
with a single file "the common prefix degenerates to that file's own
directory". -/
def commonDirSpec (names : List String) : String :=
  match names.map (fun n => dirSegs (pathResolve "/" n)) with
  | [] => "/"
  | d :: ds => "/" ++ strJoin "/" (ds.foldl commonPrefixSegs d)

/-- One documentation/code pairing (a doxxo section object).  The
`docsHtml`/`codeHtml` fields do not exist before `format` runs, hence
`Option`. -/
structure Sect where
  docsText : String
  codeText : String
  docsHtml : Option String := none
  codeHtml : Option String := none
  deriving DecidableEq

/-- One resolved source (the object literal in `resolveSources`),
with the `sections` attached later by `parseSources`. -/
structure SourceEntry where
  full : String
  out : String
  name : String
  isIndex : Bool
  sections : List Sect := []
  deriving DecidableEq

/-- The options produced by `Doxxo.configure` that the resolution and
pipeline steps consume.  `output` and `index` are already resolved
(`path.resolve`) as `configure` does. -/
structure Opts where
  output : String
  index : Option String
  recursive : Bool
  assets : Bool

/-- The mapper of `resolveSources`: check index, remove the common
directory, remove the extension, and build the source object. -/
def mkSourceEntry (opts : Opts) (common : String) (pr : String × String) :
    SourceEntry :=
  let fp := pr.1
  let src := pr.2
  let isIdx := opts.index = some fp
  let outpath :=
    if isIdx then "index"
    else strDrop (strTake src (src.toList.length -
      (extname src).toList.length)) common.toList.length
  { full := fp
    out := pathJoin opts.output (outpath ++ ".html")
    name := src
    isIndex := isIdx }

/-- `Doxxo.resolveSources(paths, opts)` (part_002 lines 183–208).
An empty cleaned mapping makes the JS `commondir` call throw, modelled
as `Err.noPaths`. -/
def resolveSources (fs : FsEntry) (cwd : String) (fuel : Nat)
    (paths : List String) (opts : Opts) : Except Err (List SourceEntry) :=
  match cleanPaths fs cwd fuel paths opts.recursive with
  | .error e => .error e
  | .ok cleaned =>
    if cleaned.isEmpty then .error .noPaths
    else
      let common := strDrop (commonDirSpec (cleaned.map (fun pr => pr.2))) 1
      .ok (cleaned.map (mkSourceEntry opts common))

/-! ## `Doxxo.parse` and `Doxxo.parsers`

`dox.parseComments(code, {raw: true})` is an external library; it is a
function parameter returning, per comment, the 1-based line where the
comment starts, the 1-based line where the code following it starts,
and `description.full`.
-/

/-- The fields of a dox comment that the splitter consumes. -/
structure Comment where
  line : Nat
  codeStart : Nat
  description : String
  deriving DecidableEq

/-- `line.replace(/^\t+/, m => "    ".repeat(m.length))`: each tab of
the leading tab run becomes four spaces. -/
def tabExpand (line : String) : String :=
  let cs := line.toList
  let n := (cs.takeWhile (fun c => c = '\t')).length
  String.mk (List.replicate (4 * n) ' ' ++ cs.drop n)

/-- The per-comment loop of the js parser: each comment yields a section
whose code runs from its `codeStart` line up to the next comment's start
line (end of file for the last one). -/
def jsCodeSections (lines : List String) : List Comment → List Sect
  | [] => []
  | c :: rest =>
    let codeEnd :=
      match rest.head? with
      | some nc => nc.line - 1
      | none => lines.length
    let codeLines := ((lines.take codeEnd).drop (c.codeStart - 1)).map tabExpand
    { docsText := c.description
      codeText := strJoin "\n" codeLines } :: jsCodeSections lines rest

/-- `Doxxo.parsers.js` (part_002 lines 264–300): the leading text is
emitted as a docs-less section only when its trim is nonempty. -/
def parsers.js (dox : String → List Comment) (code : String) : List Sect :=
  match dox code with
  | [] => []
  | c0 :: rest =>
    let lines := strSplit code '\n'
    let firstSection := strJoin "\n" (lines.take (c0.line - 1))
    (if strTrim firstSection ≠ "" then
      [{ docsText := "", codeText := firstSection }]
    else []) ++ jsCodeSections lines (c0 :: rest)

/-- `Doxxo.parsers.md`: the whole file is one docs-only section. -/
def parsers.md (code : String) : List Sect :=
  [{ docsText := code, codeText := "" }]

/-- The own keys of the `Doxxo.parsers` object.  `byType` is itself a
property of that object, which is what claim C10 is about. -/
inductive ParserKey where
  | js
  | md
  | byType
  deriving DecidableEq

/-- `type[0] === "." ? type.substr(1) : type`. -/
def stripDot (type : String) : String :=
  if strStarts type "." then strDrop type 1 else type

/-- Property lookup `Doxxo.parsers[name] || null`. -/
def parserNamed (name : String) : Option ParserKey :=
  if name = "js" then some .js
  else if name = "md" then some .md
  else if name = "byType" then some .byType
  else none

/-- `Doxxo.parsers.byType` (part_002 lines 309–313). -/
def parsers.byType (type : String) : Option ParserKey :=
  parserNamed (stripDot type)

/-- A JS value `Doxxo.parse` can return: a section array, a function
(one of the parser properties), or `null`. -/
inductive ParseResult where
  | sections (ss : List Sect)
  | fn (k : ParserKey)
  | null
  deriving DecidableEq

/-- Calling the function stored under a parser key.  Calling `byType`
on the code string performs a type lookup on it and returns the found
function or `null`. -/
def applyParser (dox : String → List Comment) :
    ParserKey → String → ParseResult
  | .js, code => .sections (parsers.js dox code)
  | .md, code => .sections (parsers.md code)
  | .byType, code =>
    match parsers.byType code with
    | some k => .fn k
    | none => .null

/-- `Doxxo.parse(code, type)` (part_002 lines 257–260): dispatch via
`parsers.byType`; a non-function lookup result yields `[]`. -/
def parse (dox : String → List Comment) (code type : String) : ParseResult :=
  match parsers.byType type with
  | some k => applyParser dox k code
  | none => .sections []

/-! ## `Doxxo#format`

`marked`, `marked.lexer`, `highlight.js` and the compiled underscore
template are external; they are carried in `RenderExt`.  The template
receives the data `format` assembles (it also receives `path`, the
`destination` helper and the doxxo instance, which are opaque to the
claims and omitted from the context record).
-/

/-- A `marked.lexer` block token, as far as `format` inspects it. -/
structure Token where
  type : String
  depth : Nat
  text : String
  deriving DecidableEq

/-- The data `format` hands to the template. -/
structure TemplateData where
  source : SourceEntry
  sourceList : List SourceEntry
  title : String
  hasTitle : Bool
  sections : List Sect

/-- The external rendering collaborators. -/
structure RenderExt where
  highlight : String → String          -- highlightjs.highlight("javascript", ·).value
  markedRender : String → String       -- marked(·, opts.marked)
  markedLexer : String → List Token    -- marked.lexer
  template : TemplateData → String     -- opts.template

/-- The `sections.forEach` body of `format`: store `codeHtml` and
`docsHtml` on every section. -/
def formatSections (ext : RenderExt) (sections : List Sect) : List Sect :=
  sections.map (fun s =>
    let code := strTrimEnd (ext.highlight s.codeText)
    { s with
      codeHtml := some ("<div class='highlight'><pre>" ++ code ++ "</pre></div>")
      docsHtml := some (ext.markedRender s.docsText) })

/-- The title derivation of `format`: the first block token of the first
section with nonempty `docsText` decides `hasTitle` and the title. -/
def formatTitle (ext : RenderExt) (sections : List Sect) (name : String) :
    Bool × String :=
  match sections.find? (fun s => !s.docsText.isEmpty) with
  | none => (false, name)
  | some firstSection =>
    match (ext.markedLexer firstSection.docsText).head? with
    | none => (false, name)
    | some first =>
      if first.type = "heading" ∧ first.depth = 1 then (true, first.text)
      else (false, name)

/-- `Doxxo#format(source)` (part_002 lines 432–468) as a state
transformer: it returns the HTML string together with the updated
source object, whose sections now carry the rendered HTML (the JS
`forEach` mutates the section objects in place). -/
def format (ext : RenderExt) (sources : List SourceEntry)
    (source : SourceEntry) : SourceEntry × String :=
  let sections' := formatSections ext source.sections
  let t := formatTitle ext sections' source.name
  let source' := { source with sections := sections' }
  (source',
   ext.template
     { source := source'
       sourceList := sources
       title := t.2
       hasTitle := t.1
       sections := sections' })

/-! ## The pipeline: `parseSources`, `document` -/

/-- A mutating filesystem operation of the output phase. -/
inductive FsWrite where
  | mkdirp (p : String)
  | copyAssets
  | writeFile (p : String) (content : String)
  deriving DecidableEq

/-- `Doxxo#parseSources`: drop unsupported types (a skip, not an
error), read each remaining file, parse it, and drop sources whose
parse result is falsy or an empty array.  When `Doxxo.parse` returns a
function value (the `.byType` quirk of C10) the JS keeps the source
with that function stored in `sections`; the embedding keeps it with no
sections. -/
def parseSources (fs : FsEntry) (dox : String → List Comment) :
    List SourceEntry → Except Err (List SourceEntry)
  | [] => .ok []
  | src :: rest =>
    match parsers.byType (extname src.full) with
    | none => parseSources fs dox rest
    | some _ =>
      match readFile fs src.full with
      | none => .error .readFailed
      | some code =>
        match parse dox code (extname src.full) with
        | .sections ss =>
          if ss.isEmpty then parseSources fs dox rest
          else
            match parseSources fs dox rest with
            | .error e => .error e
            | .ok others => .ok ({ src with sections := ss } :: others)
        | .fn _ =>
          match parseSources fs dox rest with
          | .error e => .error e
          | .ok others => .ok ({ src with sections := [] } :: others)
        | .null => parseSources fs dox rest

/-- The whole run: the constructor resolves sources (and throws before
anything is written), `document` then parses, creates the output
directory, copies assets and writes each page in order.  The result
lists the filesystem mutations of the run in order, together with the
error that aborted it, if any. -/
def document (fs : FsEntry) (cwd : String) (fuel : Nat)
    (dox : String → List Comment) (ext : RenderExt)
    (paths : List String) (opts : Opts) : List FsWrite × Option Err :=
  match resolveSources fs cwd fuel paths opts with
  | .error e => ([], some e)
  | .ok sources =>
    if sources.isEmpty then ([], some .noSources)
    else
      match parseSources fs dox sources with
      | .error e => ([], some e)
      | .ok parsed =>
        if parsed.isEmpty then ([], none)
        else
          ([FsWrite.mkdirp opts.output]
            ++ (if opts.assets then [FsWrite.copyAssets] else [])
            ++ parsed.flatMap (fun src =>
                 [FsWrite.mkdirp (pathDirname src.out),
                  FsWrite.writeFile src.out (format ext parsed src).2]),
           none)

/-! ## Statement helpers and concrete fixtures -/

/-- The line list `code.split("\n")` the js parser works on. -/
def jsLines (code : String) : List String := strSplit code '\n'

/-- The text preceding the first comment (lines 1 … `c0.line − 1`). -/
def jsLead (code : String) (c0 : Comment) : String :=
  strJoin "\n" ((jsLines code).take (c0.line - 1))

/-- The raw (un-normalized) code line spans the js parser slices out,
one per comment. -/
def jsCodeSpans (lines : List String) : List Comment → List (List String)
  | [] => []
  | c :: rest =>
    let codeEnd :=
      match rest.head? with
      | some nc => nc.line - 1
      | none => lines.length
    ((lines.take codeEnd).drop (c.codeStart - 1)) :: jsCodeSpans lines rest

/-- Whether 0-based line index `j` lies inside the text of one of the
comments (from its start line up to the line before its code starts). -/
def commentSpanned (cs : List Comment) (j : Nat) : Bool :=
  cs.any (fun c => decide (c.line - 1 ≤ j) && decide (j < c.codeStart - 1))

/-- The 0-based indices of the lines lying outside every comment text. -/
def keptIndices (cs : List Comment) (n : Nat) : List Nat :=
  (List.range n).filter (fun j => !commentSpanned cs j)

/-- Sanity of a dox result, as the spec describes the external comment
parser: 1-based start lines, code starting at or after the comment
start and within the file, comments in source order. -/
def doxSane (cs : List Comment) (n : Nat) : Prop :=
  (∀ c ∈ cs, 1 ≤ c.line ∧ c.line ≤ c.codeStart ∧ c.codeStart ≤ n + 1) ∧
  List.Chain' (fun a b => a.codeStart ≤ b.line) cs

/-- A small filesystem: `/cwd/a.js`, and `/cwd/d` containing `f.js` and
a subdirectory `s` with `g.js`. -/
def demoFs : FsEntry :=
  .dir [("cwd", .dir [("a.js", .file "var x;"),
                      ("d", .dir [("f.js", .file "f"),
                                  ("s", .dir [("g.js", .file "g")])])])]

/-- Concrete options: output `docs` resolved under `/cwd`, no index. -/
def optsW : Opts :=
  { output := "/cwd/docs", index := none, recursive := false, assets := true }

/-- A dox result for `codeC2`: one block comment spanning lines 2–4,
so the following code starts on line 5 — exactly what the spec says the
external parser reports for that input. -/
def doxC2 : String → List Comment := fun _ => [⟨2, 5, "Doc"⟩]

/-- A file with one leading code line, one block comment (lines 2–4)
and one following code line. -/
def codeC2 : String := "var x = 1;\n/**\n * Doc\n */\nfunction f() {}"

/-- Concrete external renderers for witnesses: identity highlighting
and Markdown, a lexer that sees one level-1 heading in `"# T"`. -/
def extW : RenderExt :=
  { highlight := fun s => s
    markedRender := fun s => s
    markedLexer := fun s =>
      if s = "# T" then [{ type := "heading", depth := 1, text := "T" }] else []
    template := fun _ => "" }

/-- A parsed source entry with one section, before rendering. -/
def srcW : SourceEntry :=
  { full := "/cwd/a.js", out := "/cwd/docs/a.html", name := "a.js"
    isIndex := false
    sections := [{ docsText := "", codeText := "var x;" }] }

/-- A filesystem holding `/cwd/README.md` and `/cwd/a.js`. -/
def idxFs : FsEntry :=
  .dir [("cwd", .dir [("README.md", .file "# Readme"),
                      ("a.js", .file "var x;")])]

/-- Options designating `README.md` as the index (already resolved, as
`configure` resolves `opts.index`). -/
def optsIdx : Opts :=
  { output := "/cwd/docs", index := some "/cwd/README.md"
    recursive := false, assets := true }

/-! ## Supporting lemmas -/

theorem jsCodeSections_length (lines : List String) :
    ∀ cs : List Comment, (jsCodeSections lines cs).length = cs.length := by
  intro cs
  induction cs with
  | nil => rfl
  | cons c rest ih => simp [jsCodeSections, ih]

theorem formatTitle_formatSections (ext : RenderExt) (name : String) :
    ∀ ss : List Sect,
      formatTitle ext (formatSections ext ss) name = formatTitle ext ss name := by
  intro ss
  induction ss with
  | nil => rfl
  | cons s t ih =>
    by_cases hd : s.docsText.isEmpty
    · simpa [formatTitle, formatSections, List.find?_cons, hd] using ih
    · simp [formatTitle, formatSections, List.find?_cons, hd]

theorem objSet_keys (m : List (String × String)) (k v : String) :
    (objSet m k v).map Prod.fst =
      if m.any (fun pr => pr.1 = k) then m.map Prod.fst
      else m.map Prod.fst ++ [k] := by
  rw [objSet]
  split
  · rw [List.map_map]
    apply List.map_congr_left
    intro pr _
    by_cases hpr : pr.1 = k
    · simp [hpr]
    · simp [hpr]
  · simp

theorem objSet_keys_nodup (m : List (String × String)) (k v : String)
    (h : (m.map Prod.fst).Nodup) : ((objSet m k v).map Prod.fst).Nodup := by
  rw [objSet_keys]
  split
  · exact h
  · rename_i hm
    have hk : k ∉ m.map Prod.fst := by
      intro hcontra
      rcases List.mem_map.mp hcontra with ⟨pr, hpr, rfl⟩
      exact hm (List.any_eq_true.mpr ⟨pr, hpr, by simp⟩)
    simp [List.nodup_append, h, hk]

theorem cleanPathsW_nodup (fs : FsEntry) (cwd : String) (deep : Bool) :
    ∀ (fuel : Nat) (items : List WItem) (memo m : List (String × String)),
    (memo.map Prod.fst).Nodup →
    cleanPathsW fs cwd deep fuel items memo = .ok m →
    (m.map Prod.fst).Nodup := by
  intro fuel
  induction fuel with
  | zero =>
    intro items memo m hn h
    cases items with
    | nil => injection h with h; subst h; exact hn
    | cons a rest => cases h
  | succ fuel ih =>
    intro items memo m hn h
    cases items with
    | nil => injection h with h; subst h; exact hn
    | cons it rest =>
      simp only [cleanPathsW] at h
      split at h
      · cases h
      · exact ih rest _ m (objSet_keys_nodup _ _ _ hn) h
      · split at h
        · split at h
          · cases h
          · rename_i memo' hmem'
            exact ih rest memo' m (ih _ memo memo' hn hmem') h
        · exact ih rest memo m hn h

theorem cleanPathsW_error_cases (fs : FsEntry) (cwd : String) (deep : Bool) :
    ∀ (fuel : Nat) (items : List WItem) (memo : List (String × String))
      (e : Err),
    cleanPathsW fs cwd deep fuel items memo = .error e →
    e = .pathNotFound ∨ e = .outOfFuel := by
  intro fuel
  induction fuel with
  | zero =>
    intro items memo e h
    cases items with
    | nil => cases h
    | cons a rest => injection h with h; subst h; right; rfl
  | succ fuel ih =>
    intro items memo e h
    cases items with
    | nil => cases h
    | cons it rest =>
      simp only [cleanPathsW] at h
      split at h
      · injection h with h; subst h; left; rfl
      · exact ih rest _ e h
      · split at h
        · split at h
          · rename_i e' hnest
            injection h with h
            subst h
            exact ih _ memo e' hnest
          · exact ih rest _ e h
        · exact ih rest memo e h

theorem cleanPathsW_missing (fs : FsEntry) (cwd : String) (deep : Bool) :
    ∀ (fuel : Nat) (items : List WItem) (memo : List (String × String)),
    (∃ it ∈ items, it.known = none ∧
      lookupFs fs (pathResolve cwd (pathNormalize it.src)) = none) →
    ∀ m, cleanPathsW fs cwd deep fuel items memo ≠ .ok m := by
  intro fuel
  induction fuel with
  | zero =>
    intro items memo hex m h
    rcases hex with ⟨it, hmem, _⟩
    cases items with
    | nil => cases hmem
    | cons a rest => cases h
  | succ fuel ih =>
    intro items memo hex m h
    rcases hex with ⟨it, hmem, hk, hl⟩
    cases items with
    | nil => cases hmem
    | cons a rest =>
      simp only [cleanPathsW] at h
      split at h
      · cases h
      · rename_i c heq
        rcases List.mem_cons.mp hmem with rfl | hmem'
        · rw [hk, Option.none_or, hl] at heq
          cases heq
        · exact ih rest _ ⟨it, hmem', hk, hl⟩ m h
      · rename_i es heq
        rcases List.mem_cons.mp hmem with rfl | hmem'
        · rw [hk, Option.none_or, hl] at heq
          cases heq
        · split at h
          · split at h
            · cases h
            · rename_i memo' _
              exact ih rest memo' ⟨it, hmem', hk, hl⟩ m h
          · exact ih rest memo ⟨it, hmem', hk, hl⟩ m h

theorem filter_index_le_one (opts : Opts) (common : String) :
    ∀ (cleaned : List (String × String)),
    (cleaned.map Prod.fst).Nodup →
    ((cleaned.map (mkSourceEntry opts common)).filter
      (fun e => e.isIndex)).length ≤ 1 := by
  intro cleaned
  induction cleaned with
  | nil => simp
  | cons pr rest ih =>
    intro hn
    rw [List.map_cons] at hn
    rcases List.nodup_cons.mp hn with ⟨hmem, hrest⟩
    rw [List.map_cons, List.filter_cons]
    by_cases hi : (mkSourceEntry opts common pr).isIndex
    · rw [if_pos hi]
      have hidx : opts.index = some pr.1 := by
        simpa [mkSourceEntry] using hi
      have hnil : (rest.map (mkSourceEntry opts common)).filter
          (fun e => e.isIndex) = [] := by
        rw [List.filter_eq_nil_iff]
        intro e hee
        rcases List.mem_map.mp hee with ⟨pr', hpr', rfl⟩
        have hne : pr'.1 ≠ pr.1 := by
          intro hcontra
          exact hmem (hcontra ▸ List.mem_map_of_mem Prod.fst hpr')
        have hni : ¬ (opts.index = some pr'.1) := by
          rw [hidx]
          intro hcc
          exact hne (Option.some.inj hcc).symm
        simp [mkSourceEntry, hni]
      simp [hnil]
    · rw [if_neg hi]
      exact ih hrest

theorem chSplit_ne_nil (sep : Char) : ∀ cs : List Char, chSplit sep cs ≠ [] := by
  intro cs
  induction cs with
  | nil => simp [chSplit]
  | cons c rest ih =>
    rw [chSplit]
    split
    · simp
    · split
      · simp
      · simp

theorem chSplit_mem_no_sep (sep : Char) :
    ∀ (cs l : List Char), l ∈ chSplit sep cs → sep ∉ l := by
  intro cs
  induction cs with
  | nil =>
    intro l hl
    simp [chSplit] at hl
    simp [hl]
  | cons c rest ih =>
    intro l hl
    rw [chSplit] at hl
    split at hl
    · rcases List.mem_cons.mp hl with rfl | hl'
      · simp
      · exact ih l hl'
    · rename_i hc
      cases hr : chSplit sep rest with
      | nil => exact absurd hr (chSplit_ne_nil sep rest)
      | cons hd tl =>
        rw [hr] at hl
        rcases List.mem_cons.mp hl with rfl | hl'
        · intro hmem
          rcases List.mem_cons.mp hmem with rfl | hmem'
          · exact hc rfl
          · exact ih hd (hr ▸ List.mem_cons_self hd tl) hmem'
        · exact ih l (hr ▸ List.mem_cons_of_mem hd hl')

theorem chSplit_no_sep (sep : Char) :
    ∀ cs : List Char, sep ∉ cs → chSplit sep cs = [cs] := by
  intro cs
  induction cs with
  | nil => intro _; rfl
  | cons c rest ih =>
    intro h
    have hc : ¬(c = sep) := fun hcc => h (hcc ▸ List.mem_cons_self c rest)
    have hrest : sep ∉ rest := fun hm => h (List.mem_cons_of_mem c hm)
    rw [chSplit, ih hrest]
    simp [hc]

theorem basename_no_slash (s : String) : '/' ∉ (basename s).toList := by
  rw [basename]
  cases hgl : (((strSplit s '/').filter (fun t => t ≠ "")).getLast?) with
  | none => simp
  | some b =>
    simp only [Option.getD_some]
    have hb : b ∈ (strSplit s '/').filter (fun t => t ≠ "") := by
      have hx : b ∈ ((strSplit s '/').filter (fun t => t ≠ "")).getLast? :=
        Option.mem_def.mpr hgl
      rcases List.mem_getLast?_eq_getLast hx with ⟨hne, rfl⟩
      exact List.getLast_mem hne
    have hb' : b ∈ strSplit s '/' := List.mem_of_mem_filter hb
    rcases List.mem_map.mp hb' with ⟨l, hl, rfl⟩
    exact chSplit_mem_no_sep '/' s.toList l hl

theorem mk_single_eq_slash (c : Char) : (String.mk [c] = "/") ↔ c = '/' := by
  constructor
  · intro h
    have hd := congrArg String.data h
    simpa using hd
  · intro h
    subst h
    rfl

theorem strStarts_slash_false (b : String) (hb : '/' ∉ b.toList) :
    strStarts b "/" = false := by
  rw [strStarts, strTake]
  cases hbl : b.toList with
  | nil => simp
  | cons c cs =>
    have hc : c ≠ '/' := by
      intro hcc
      exact hb (hbl ▸ (hcc ▸ List.mem_cons_self c cs))
    simp [mk_single_eq_slash, hc]

theorem dirSegs_resolve_root (b : String) (hb : '/' ∉ b.toList) :
    dirSegs (pathResolve "/" b) = [] := by
  have hres : pathResolve "/" b = pathNormalize ("/" ++ "/" ++ b) := by
    rw [pathResolve, strStarts_slash_false b hb]
    simp
  have hdata : ("/" ++ "/" ++ b).toList = '/' :: '/' :: b.toList := by
    show ("/" ++ "/" ++ b).data = _
    rw [String.data_append, String.data_append]
    rfl
  have hsplit : strSplit ("/" ++ "/" ++ b) '/' = ["", "", b] := by
    rw [strSplit, hdata, chSplit, chSplit, chSplit_no_sep '/' b.toList hb]
    simp
  have habs : strStarts ("/" ++ "/" ++ b) "/" = true := by
    rw [strStarts, strTake, hdata]
    simp [mk_single_eq_slash]
  by_cases h0 : b = "" ∨ b = "."
  · have hsegs : pathSegs ("/" ++ "/" ++ b) = [] := by
      rw [pathSegs, hsplit, habs]
      rcases h0 with rfl | rfl <;> rfl
    rw [hres, pathNormalize, hsegs, habs]
    rfl
  · by_cases h1 : b = ".."
    · have hsegs : pathSegs ("/" ++ "/" ++ b) = [] := by
        rw [pathSegs, hsplit, habs, h1]
        rfl
      rw [hres, pathNormalize, hsegs, habs]
      rfl
    · have hsegs : pathSegs ("/" ++ "/" ++ b) = [b] := by
        rw [pathSegs, hsplit, habs]
        rw [normSegsAux, normSegsAux, normSegsAux]
        simp [h0, h1]
        rw [normSegsAux]
        simp
      have hnorm : pathNormalize ("/" ++ "/" ++ b) = "/" ++ b := by
        rw [pathNormalize, hsegs, habs]
        rfl
      rw [hres, hnorm]
      have hdata2 : ("/" ++ b).toList = '/' :: b.toList := by
        show ("/" ++ b).data = _
        rw [String.data_append]
        rfl
      have hsplit2 : strSplit ("/" ++ b) '/' = ["", b] := by
        rw [strSplit, hdata2, chSplit, chSplit_no_sep '/' b.toList hb]
        simp
      have hbne : ¬(b = "") := fun hx => h0 (Or.inl hx)
      rw [dirSegs, hsplit2]
      simp [hbne]

theorem commonDirSpec_single (b : String) (hb : '/' ∉ b.toList) :
    commonDirSpec [b] = "/" := by
  rw [commonDirSpec]
  simp [dirSegs_resolve_root b hb]
  rfl

theorem strDrop_zero (s : String) : strDrop s 0 = s := rfl

theorem range'_split (s m k : Nat) :
    List.range' s (m + k) = List.range' s m ++ List.range' (s + m) k := by
  induction m generalizing s with
  | zero => simp
  | succ m ihm =>
    rw [Nat.succ_add, List.range'_succ, List.range'_succ, ihm (s + 1)]
    rw [show s + 1 + m = s + (m + 1) from by omega]
    rfl

theorem map_getD_range'_shift (x : String) (xs : List String) (d : String) :
    ∀ (n s : Nat), (List.range' (s + 1) n).map (fun j => (x :: xs).getD j d) =
      (List.range' s n).map (fun j => xs.getD j d) := by
  intro n
  induction n with
  | zero => intro s; rfl
  | succ n ihn =>
    intro s
    rw [List.range'_succ, List.range'_succ, List.map_cons, List.map_cons,
      ihn (s + 1)]
    simp

theorem take_map_range (d : String) :
    ∀ (lines : List String) (b : Nat), b ≤ lines.length →
    lines.take b = (List.range' 0 b).map (fun j => lines.getD j d) := by
  intro lines
  induction lines with
  | nil =>
    intro b hb
    have : b = 0 := Nat.le_zero.mp hb
    subst this
    rfl
  | cons x xs ih =>
    intro b hb
    cases b with
    | zero => rfl
    | succ b' =>
      rw [List.take_succ_cons, List.range'_succ, List.map_cons,
        ih b' (Nat.le_of_succ_le_succ hb),
        show (0 : Nat) + 1 = 1 from rfl, map_getD_range'_shift x xs d b' 0]
      rfl

theorem map_getD_range'_drop (lines : List String) (d : String) (a : Nat) :
    ∀ (n s : Nat), (List.range' s n).map (fun j => (lines.drop a).getD j d) =
      (List.range' (a + s) n).map (fun j => lines.getD j d) := by
  intro n
  induction n with
  | zero => intro s; rfl
  | succ n ihn =>
    intro s
    rw [List.range'_succ, List.range'_succ, List.map_cons, List.map_cons,
      ihn (s + 1)]
    congr 1
    simp [List.getD_eq_getElem?_getD, List.getElem?_drop]

theorem take_drop_map_range (lines : List String) (a b : Nat)
    (hb : b ≤ lines.length) :
    (lines.take b).drop a =
      (List.range' a (b - a)).map (fun j => lines.getD j "") := by
  rw [List.drop_take,
    take_map_range "" (lines.drop a) (b - a) (by rw [List.length_drop]; omega),
    map_getD_range'_drop lines "" a (b - a) 0, Nat.add_zero]

theorem comments_le :
    ∀ (rest : List Comment) (c : Comment),
    List.Chain' (fun a b => a.codeStart ≤ b.line) (c :: rest) →
    (∀ x ∈ c :: rest, x.line ≤ x.codeStart) →
    ∀ x ∈ rest, c.codeStart ≤ x.line := by
  intro rest
  induction rest with
  | nil => intro c _ _ x hx; cases hx
  | cons c1 rest' ih =>
    intro c hch hle x hx
    rcases List.chain'_cons.mp hch with ⟨h01, hch'⟩
    rcases List.mem_cons.mp hx with rfl | hx'
    · exact h01
    · have h2 := ih c1 hch' (fun y hy => hle y (List.mem_cons_of_mem c hy)) x hx'
      have h1 : c1.line ≤ c1.codeStart := hle c1 (by simp)
      omega

theorem commentSpanned_cons (c : Comment) (tl : List Comment) (j : Nat) :
    commentSpanned (c :: tl) j =
      ((decide (c.line - 1 ≤ j) && decide (j < c.codeStart - 1)) ||
        commentSpanned tl j) := by
  rw [commentSpanned, List.any_cons]
  rfl

theorem spans_flatten (lines : List String) :
    ∀ (rest : List Comment) (c : Comment),
    doxSane (c :: rest) lines.length →
    (jsCodeSpans lines (c :: rest)).flatten =
      ((List.range' (c.line - 1) (lines.length - (c.line - 1))).filter
        (fun j => !commentSpanned (c :: rest) j)).map
        (fun j => lines.getD j "") := by
  intro rest
  induction rest with
  | nil =>
    intro c hs
    rcases hs with ⟨hmem, _⟩
    obtain ⟨h1, h2, h3⟩ := hmem c (by simp)
    have hLS : c.line - 1 ≤ c.codeStart - 1 := by omega
    have hSn : c.codeStart - 1 ≤ lines.length := by omega
    rw [jsCodeSpans]
    show (lines.take lines.length).drop (c.codeStart - 1) ++ [] = _
    rw [List.append_nil,
      take_drop_map_range lines (c.codeStart - 1) lines.length (le_refl _)]
    rw [show lines.length - (c.line - 1) =
      ((c.codeStart - 1) - (c.line - 1)) +
        (lines.length - (c.codeStart - 1)) from by omega]
    rw [range'_split, List.filter_append]
    rw [show (c.line - 1) + ((c.codeStart - 1) - (c.line - 1)) =
      c.codeStart - 1 from by omega]
    have hnil : (List.range' (c.line - 1)
        ((c.codeStart - 1) - (c.line - 1))).filter
        (fun j => !commentSpanned [c] j) = [] := by
      rw [List.filter_eq_nil_iff]
      intro j hj
      rcases List.mem_range'_1.mp hj with ⟨hj1, hj2⟩
      simp only [commentSpanned_cons, commentSpanned, List.any_nil]
      simp
      omega
    have hself : (List.range' (c.codeStart - 1)
        (lines.length - (c.codeStart - 1))).filter
        (fun j => !commentSpanned [c] j) =
        List.range' (c.codeStart - 1) (lines.length - (c.codeStart - 1)) := by
      rw [List.filter_eq_self]
      intro j hj
      rcases List.mem_range'_1.mp hj with ⟨hj1, _⟩
      simp only [commentSpanned_cons, commentSpanned, List.any_nil]
      simp
      omega
    rw [hnil, hself, List.nil_append]
  | cons c1 rest' ih =>
    intro c hs
    rcases hs with ⟨hmem, hch⟩
    obtain ⟨h1, h2, h3⟩ := hmem c (by simp)
    obtain ⟨g1, g2, g3⟩ := hmem c1 (by simp)
    rcases List.chain'_cons.mp hch with ⟨h01, hch'⟩
    have hsane' : doxSane (c1 :: rest') lines.length :=
      ⟨fun x hx => hmem x (List.mem_cons_of_mem c hx), hch'⟩
    have hLS : c.line - 1 ≤ c.codeStart - 1 := by omega
    have hSM : c.codeStart - 1 ≤ c1.line - 1 := by omega
    have hMn : c1.line - 1 ≤ lines.length := by omega
    have hrest'_ge : ∀ x ∈ rest', c1.codeStart ≤ x.line :=
      comments_le rest' c1 hch'
        (fun y hy => (hmem y (List.mem_cons_of_mem c hy)).2.1)
    rw [jsCodeSpans]
    show (lines.take (c1.line - 1)).drop (c.codeStart - 1) ++
      (jsCodeSpans lines (c1 :: rest')).flatten = _
    rw [ih c1 hsane',
      take_drop_map_range lines (c.codeStart - 1) (c1.line - 1) hMn]
    rw [show lines.length - (c.line - 1) =
      ((c.codeStart - 1) - (c.line - 1)) +
        (((c1.line - 1) - (c.codeStart - 1)) +
          (lines.length - (c1.line - 1))) from by omega]
    rw [range'_split, range'_split, List.filter_append, List.filter_append]
    rw [show (c.line - 1) + ((c.codeStart - 1) - (c.line - 1)) =
      c.codeStart - 1 from by omega]
    rw [show (c.codeStart - 1) + ((c1.line - 1) - (c.codeStart - 1)) =
      c1.line - 1 from by omega]
    have hnil : (List.range' (c.line - 1)
        ((c.codeStart - 1) - (c.line - 1))).filter
        (fun j => !commentSpanned (c :: c1 :: rest') j) = [] := by
      rw [List.filter_eq_nil_iff]
      intro j hj
      rcases List.mem_range'_1.mp hj with ⟨hj1, hj2⟩
      simp only [commentSpanned_cons]
      simp
      omega
    have hself : (List.range' (c.codeStart - 1)
        ((c1.line - 1) - (c.codeStart - 1))).filter
        (fun j => !commentSpanned (c :: c1 :: rest') j) =
        List.range' (c.codeStart - 1) ((c1.line - 1) - (c.codeStart - 1)) := by
      rw [List.filter_eq_self]
      intro j hj
      rcases List.mem_range'_1.mp hj with ⟨hj1, hj2⟩
      have hjM : j < c1.line - 1 := by omega
      have hrest : commentSpanned rest' j = false := by
        rw [commentSpanned, List.any_eq_false]
        intro x hx
        have hx1 : c1.codeStart ≤ x.line := hrest'_ge x hx
        have hx2 : c1.line ≤ c1.codeStart := g2
        simp [show ¬(x.line - 1 ≤ j) from by omega]
      simp only [commentSpanned_cons, hrest]
      simp
      omega
    have hcongr : (List.range' (c1.line - 1)
        (lines.length - (c1.line - 1))).filter
        (fun j => !commentSpanned (c :: c1 :: rest') j) =
        (List.range' (c1.line - 1)
          (lines.length - (c1.line - 1))).filter
        (fun j => !commentSpanned (c1 :: rest') j) := by
      apply List.filter_congr
      intro j hj
      rcases List.mem_range'_1.mp hj with ⟨hj1, _⟩
      simp only [commentSpanned_cons]
      simp [show ¬(j < c.codeStart - 1) from by omega]
    rw [hnil, hself, hcongr, List.nil_append, List.map_append]

/-! ## Claims -/

/-- C10: for every code string, `Doxxo.parse(code, "byType")` (or
`".byType"`) looks up the `byType` dispatcher itself in
`Doxxo.parsers`, invokes it on the code string, and returns its
non-array result (`null` or a parser function) — unlike every other
unregistered type, for which `parse` returns the empty array. -/
theorem claim_C10 (dox : String → List Comment) (code : String) :
    parse dox code "byType" = applyParser dox .byType code ∧
    parse dox code ".byType" = applyParser dox .byType code ∧
    (parse dox code "byType" = .null ∨
      ∃ k, parse dox code "byType" = .fn k) ∧
    (∀ ss, parse dox code "byType" ≠ .sections ss) ∧
    (∀ type, parserNamed (stripDot type) = none →
      parse dox code type = .sections []) := by
  have hp : parse dox code "byType" =
      (match parsers.byType code with
       | some k => ParseResult.fn k
       | none => ParseResult.null) := rfl
  refine ⟨rfl, rfl, ?_, ?_, ?_⟩
  · rw [hp]
    cases hk : parsers.byType code <;> simp
  · intro ss
    rw [hp]
    cases hk : parsers.byType code <;> simp
  · intro type ht
    simp [parse, parsers.byType, ht]

/-- Witness for C10 at the unregistered type `".txt"`. -/
theorem claim_C10_witness :
    parse (fun _ => []) "x" ".txt" = .sections [] :=
  (claim_C10 (fun _ => []) "x").2.2.2.2 ".txt" rfl

/-- C6: the page title comes from the first section with nonempty
`docsText`: when its first Markdown block token is a level-1 heading,
`hasTitle` is true and the title is the heading text; in every other
case (no such section, no token, or a different first token)
`hasTitle` is false and the title is the entry's display name.  The
first conjunct records that rendering the sections first (as `format`
does) cannot change the outcome. -/
theorem claim_C6 (ext : RenderExt) (sections : List Sect) (name : String) :
    (formatTitle ext (formatSections ext sections) name =
      formatTitle ext sections name) ∧
    (∀ s, sections.find? (fun s => !s.docsText.isEmpty) = some s →
      (∀ t ts, ext.markedLexer s.docsText = t :: ts →
        (t.type = "heading" → t.depth = 1 →
          formatTitle ext sections name = (true, t.text)) ∧
        (¬(t.type = "heading" ∧ t.depth = 1) →
          formatTitle ext sections name = (false, name))) ∧
      (ext.markedLexer s.docsText = [] →
        formatTitle ext sections name = (false, name))) ∧
    (sections.find? (fun s => !s.docsText.isEmpty) = none →
      formatTitle ext sections name = (false, name)) := by
  refine ⟨formatTitle_formatSections ext name sections, ?_, ?_⟩
  · intro s hs
    refine ⟨?_, ?_⟩
    · intro t ts hl
      constructor
      · intro h1 h2
        simp [formatTitle, hs, hl, h1, h2]
      · intro hneg
        simp [formatTitle, hs, hl, hneg]
    · intro hl
      simp [formatTitle, hs, hl]
  · intro hn
    simp [formatTitle, hn]

/-- Witness for C6: a level-1 heading `"# T"` yields the title `T`. -/
theorem claim_C6_witness :
    formatTitle extW [{ docsText := "# T", codeText := "" }] "a.js" =
      (true, "T") :=
  ((((claim_C6 extW [{ docsText := "# T", codeText := "" }] "a.js").2.1
    { docsText := "# T", codeText := "" } rfl).1
    { type := "heading", depth := 1, text := "T" } [] rfl).1) rfl rfl

/-- C9 as stated is false: `format` does mutate the entry — after it
runs, the entry's sections carry `codeHtml`/`docsHtml`. -/
theorem claim_C9_counterexample :
    (format extW [] srcW).1 ≠ srcW ∧
    (format extW [] srcW).1.sections.map (fun s => s.codeHtml) ≠
      srcW.sections.map (fun s => s.codeHtml) := by
  decide

/-- C9 amended: `format` performs no filesystem effect and leaves the
entry's identity fields and every section's `docsText`/`codeText`
unchanged, but it stores the rendered `docsHtml`/`codeHtml` on the
entry's sections. -/
theorem claim_C9_amended (ext : RenderExt) (sources : List SourceEntry)
    (src : SourceEntry) :
    (format ext sources src).1.full = src.full ∧
    (format ext sources src).1.out = src.out ∧
    (format ext sources src).1.name = src.name ∧
    (format ext sources src).1.isIndex = src.isIndex ∧
    (format ext sources src).1.sections.map (fun s => s.docsText) =
      src.sections.map (fun s => s.docsText) ∧
    (format ext sources src).1.sections.map (fun s => s.codeText) =
      src.sections.map (fun s => s.codeText) ∧
    (format ext sources src).1.sections.map (fun s => s.docsHtml) =
      src.sections.map (fun s => some (ext.markedRender s.docsText)) ∧
    (format ext sources src).1.sections.map (fun s => s.codeHtml) =
      src.sections.map (fun s => some ("<div class='highlight'><pre>" ++
        strTrimEnd (ext.highlight s.codeText) ++ "</pre></div>")) := by
  refine ⟨rfl, rfl, rfl, rfl, ?_, ?_, ?_, ?_⟩ <;>
    simp [format, formatSections, List.map_map, Function.comp]

/-- C5: when the comment parser finds at least one comment, the js
splitter emits the leading section — lines 1 … `c0.line − 1` with empty
`docsText` — exactly when that leading text trims to something
nonempty; otherwise the output starts directly with the per-comment
sections. -/
theorem claim_C5 (dox : String → List Comment) (code : String)
    (c0 : Comment) (rest : List Comment) (h : dox code = c0 :: rest) :
    (parsers.js dox code).length =
      (dox code).length + (if strTrim (jsLead code c0) = "" then 0 else 1) ∧
    (strTrim (jsLead code c0) ≠ "" →
      (parsers.js dox code).head? =
        some { docsText := "", codeText := jsLead code c0 }) ∧
    (strTrim (jsLead code c0) = "" →
      (parsers.js dox code).head? =
        (jsCodeSections (jsLines code) (c0 :: rest)).head?) := by
  have hjs : parsers.js dox code =
      (if strTrim (jsLead code c0) ≠ "" then
        [{ docsText := "", codeText := jsLead code c0 }]
      else []) ++ jsCodeSections (jsLines code) (c0 :: rest) := by
    simp only [parsers.js]
    rw [h]
    rfl
  by_cases he : strTrim (jsLead code c0) = ""
  · refine ⟨?_, fun hne => absurd he hne, fun _ => ?_⟩
    · rw [hjs]
      simp [he, jsCodeSections_length, h]
    · rw [hjs]
      simp [he]
  · refine ⟨?_, fun _ => ?_, fun heq => absurd heq he⟩
    · rw [hjs]
      simp [he, jsCodeSections_length, h]
    · rw [hjs]
      simp [he]

/-- Witness for C5 on `codeC2`: the leading line `var x = 1;` is
non-whitespace, so the leading section is emitted. -/
theorem claim_C5_witness :
    (parsers.js doxC2 codeC2).head? =
      some { docsText := "", codeText := jsLead codeC2 ⟨2, 5, "Doc"⟩ } :=
  (claim_C5 doxC2 codeC2 ⟨2, 5, "Doc"⟩ [] rfl).2.1 (by decide)

/-- C4: in every successful source resolution, an entry is marked
`isIndex` exactly when its absolute path equals the resolved index
path, and such an entry's output file is `index.html` under the output
directory regardless of its computed name. -/
theorem claim_C4 (fs : FsEntry) (cwd : String) (fuel : Nat)
    (paths : List String) (opts : Opts) (entries : List SourceEntry)
    (h : resolveSources fs cwd fuel paths opts = .ok entries) :
    ∀ e ∈ entries,
      (e.isIndex = true ↔ opts.index = some e.full) ∧
      (opts.index = some e.full →
        e.out = pathJoin opts.output "index.html" ∧ e.isIndex = true) := by
  rw [resolveSources] at h
  split at h
  · cases h
  · split at h
    · cases h
    · injection h with h
      subst h
      intro e he
      rcases List.mem_map.mp he with ⟨pr, _, rfl⟩
      constructor
      · simp [mkSourceEntry]
      · intro hidx
        simp only [mkSourceEntry] at hidx
        simp [mkSourceEntry, hidx]

/-- Witness for C4: with `--index README.md`, the README entry outputs
to `index.html` (and not to a name derived from `README`). -/
theorem claim_C4_witness :
    ({ full := "/cwd/README.md", out := "/cwd/docs/index.html"
       name := "README.md", isIndex := true } : SourceEntry).out =
      pathJoin "/cwd/docs" "index.html" ∧
    ({ full := "/cwd/README.md", out := "/cwd/docs/index.html"
       name := "README.md", isIndex := true } : SourceEntry).isIndex = true :=
  (claim_C4 idxFs "/cwd" 10 ["README.md", "a.js"] optsIdx
    [{ full := "/cwd/README.md", out := "/cwd/docs/index.html"
       name := "README.md", isIndex := true },
     { full := "/cwd/a.js", out := "/cwd/docs/a.html"
       name := "a.js", isIndex := false }] rfl
    _ (List.mem_cons_self _ _)).2 rfl

/-- C3: a directory supplied as a top-level input (a worklist item with
`strip = none`) is expanded into its immediate children no matter the
value of `recursive`, while a directory met below the top level
(`strip` set by the traversal) is expanded only when `recursive` is
true and is skipped entirely otherwise. -/
theorem claim_C3 (fs : FsEntry) (cwd : String) (fuel : Nat) (src : String)
    (rest : List WItem) (memo : List (String × String))
    (es : List (String × FsEntry)) :
    (∀ deep, lookupFs fs (pathResolve cwd (pathNormalize src)) =
        some (.dir es) →
      cleanPathsW fs cwd deep (fuel + 1) (⟨src, none, none⟩ :: rest) memo =
        match cleanPathsW fs cwd deep fuel
            (es.map (fun e => ⟨pathJoin (pathNormalize src) e.1, some e.2,
              some (pathNormalize src)⟩)) memo with
        | .error e => .error e
        | .ok memo' => cleanPathsW fs cwd deep fuel rest memo') ∧
    (∀ stripv, cleanPathsW fs cwd false (fuel + 1)
        (⟨src, some (.dir es), some stripv⟩ :: rest) memo =
      cleanPathsW fs cwd false fuel rest memo) ∧
    (∀ stripv, cleanPathsW fs cwd true (fuel + 1)
        (⟨src, some (.dir es), some stripv⟩ :: rest) memo =
        match cleanPathsW fs cwd true fuel
            (es.map (fun e => ⟨pathJoin (pathNormalize src) e.1, some e.2,
              some stripv⟩)) memo with
        | .error e => .error e
        | .ok memo' => cleanPathsW fs cwd true fuel rest memo') := by
  refine ⟨?_, ?_, ?_⟩
  · intro deep hl
    simp [cleanPathsW, Option.or, hl]
  · intro stripv
    simp [cleanPathsW, Option.or]
  · intro stripv
    simp [cleanPathsW, Option.or]

theorem jsCodeSections_codeText (lines : List String) :
    ∀ cs : List Comment,
    (jsCodeSections lines cs).map (fun s => s.codeText) =
      (jsCodeSpans lines cs).map (fun sp => strJoin "\n" (sp.map tabExpand)) := by
  intro cs
  induction cs with
  | nil => rfl
  | cons c rest ih =>
    rw [jsCodeSections, jsCodeSpans, List.map_cons, List.map_cons, ih]

/-- C2 as stated is false: on `codeC2` (whose single block comment is
reported by the external parser at lines 2–4 with code starting at line
5, satisfying `doxSane`), joining all `codeText` values does not
reconstruct the file — the comment's own lines appear in no section's
`codeText`, and `codeC2` contains no tabs, so tab normalization cannot
account for the difference. -/
theorem claim_C2_counterexample :
    strJoin "\n" ((parsers.js doxC2 codeC2).map (fun s => s.codeText)) ≠
      codeC2 ∧
    doxSane (doxC2 codeC2) (jsLines codeC2).length ∧
    (∀ l ∈ jsLines codeC2, '\t' ∉ l.toList) :=
  ⟨by decide, ⟨by decide, List.chain'_singleton _⟩, by decide⟩

/-- C2 amended: the concatenation reconstructs the file with the lines
of each comment's text (its start line through `codeStart − 1`)
removed: the leading span plus the per-comment code spans list exactly
the lines whose index lies outside every comment text, in order, each
exactly once; and the `codeText` values are exactly the newline-joins
of those spans (the leading span only when its trim is nonempty,
tab-normalization applied to the per-comment spans). -/
theorem claim_C2_amended (dox : String → List Comment) (code : String)
    (c0 : Comment) (rest : List Comment)
    (h : dox code = c0 :: rest)
    (hs : doxSane (c0 :: rest) (jsLines code).length) :
    (jsLines code).take (c0.line - 1) ++
      (jsCodeSpans (jsLines code) (c0 :: rest)).flatten =
      (keptIndices (c0 :: rest) (jsLines code).length).map
        (fun j => (jsLines code).getD j "") ∧
    (parsers.js dox code).map (fun s => s.codeText) =
      (if strTrim (jsLead code c0) = "" then [] else [jsLead code c0]) ++
      (jsCodeSpans (jsLines code) (c0 :: rest)).map
        (fun sp => strJoin "\n" (sp.map tabExpand)) := by
  rcases hs with ⟨hmem, hch⟩
  obtain ⟨h1, h2, h3⟩ := hmem c0 (by simp)
  have hrest_ge : ∀ x ∈ rest, c0.codeStart ≤ x.line :=
    comments_le rest c0 hch (fun y hy => (hmem y hy).2.1)
  have hL : c0.line - 1 ≤ (jsLines code).length := by omega
  constructor
  · rw [keptIndices, List.range_eq_range']
    rw [show (jsLines code).length =
      (c0.line - 1) + ((jsLines code).length - (c0.line - 1)) from by omega]
    rw [range'_split, List.filter_append, Nat.zero_add]
    have hself : (List.range' 0 (c0.line - 1)).filter
        (fun j => !commentSpanned (c0 :: rest) j) =
        List.range' 0 (c0.line - 1) := by
      rw [List.filter_eq_self]
      intro j hj
      rcases List.mem_range'_1.mp hj with ⟨_, hj2⟩
      have hjL : j < c0.line - 1 := by omega
      have hrest0 : commentSpanned rest j = false := by
        rw [commentSpanned, List.any_eq_false]
        intro x hx
        have hx1 : c0.codeStart ≤ x.line := hrest_ge x hx
        simp [show ¬(x.line - 1 ≤ j) from by omega]
      simp only [commentSpanned_cons, hrest0]
      simp
      omega
    rw [hself, List.map_append,
      ← take_map_range "" (jsLines code) (c0.line - 1) hL,
      spans_flatten (jsLines code) rest c0 ⟨hmem, hch⟩]
  · have hjs : parsers.js dox code =
        (if strTrim (jsLead code c0) ≠ "" then
          [{ docsText := "", codeText := jsLead code c0 }]
        else []) ++ jsCodeSections (jsLines code) (c0 :: rest) := by
      simp only [parsers.js]
      rw [h]
      rfl
    rw [hjs, List.map_append, jsCodeSections_codeText]
    by_cases he : strTrim (jsLead code c0) = ""
    · simp [he]
    · simp [he]

/-- Witness for the amended C2 on `codeC2`: its hypotheses hold for the
parser output the spec describes there. -/
theorem claim_C2_amended_witness :
    (jsLines codeC2).take ((⟨2, 5, "Doc"⟩ : Comment).line - 1) ++
      (jsCodeSpans (jsLines codeC2) [⟨2, 5, "Doc"⟩]).flatten =
      (keptIndices [⟨2, 5, "Doc"⟩] (jsLines codeC2).length).map
        (fun j => (jsLines codeC2).getD j "") ∧
    (parsers.js doxC2 codeC2).map (fun s => s.codeText) =
      (if strTrim (jsLead codeC2 ⟨2, 5, "Doc"⟩) = "" then []
       else [jsLead codeC2 ⟨2, 5, "Doc"⟩]) ++
      (jsCodeSpans (jsLines codeC2) [⟨2, 5, "Doc"⟩]).map
        (fun sp => strJoin "\n" (sp.map tabExpand)) :=
  claim_C2_amended doxC2 codeC2 ⟨2, 5, "Doc"⟩ [] rfl
    ⟨by decide, List.chain'_singleton _⟩

/-- C1: a run whose resolved input set is a single file (not marked as
the index) gets the relative output name "basename without extension",
so exactly one output file `output/<base>.html` is produced: with a
single file the spec-modelled common directory degenerates to the
file's own directory and strips nothing. -/
theorem claim_C1 (fs : FsEntry) (cwd : String) (fuel : Nat) (p : String)
    (opts : Opts) (content : String)
    (hf : lookupFs fs (pathResolve cwd (pathNormalize p)) =
      some (.file content))
    (hidx : opts.index ≠ some (pathResolve cwd (pathNormalize p))) :
    resolveSources fs cwd (fuel + 1) [p] opts =
      .ok [{ full := pathResolve cwd (pathNormalize p)
             out := pathJoin opts.output
               (strTake (basename (pathNormalize p))
                 ((basename (pathNormalize p)).toList.length -
                  (extname (basename (pathNormalize p))).toList.length)
                ++ ".html")
             name := basename (pathNormalize p)
             isIndex := false }] := by
  have hclean : cleanPaths fs cwd (fuel + 1) [p] opts.recursive =
      .ok [(pathResolve cwd (pathNormalize p),
            basename (pathNormalize p))] := by
    simp [cleanPaths, cleanPathsW, Option.or, hf, objSet]
  have hcommon : strDrop (commonDirSpec [basename (pathNormalize p)]) 1 = "" := by
    rw [commonDirSpec_single _ (basename_no_slash (pathNormalize p))]
    rfl
  rw [resolveSources, hclean]
  simp only [List.isEmpty_cons, List.map_cons, List.map_nil, if_neg]
  rw [if_neg (by simp)]
  simp only [List.map_cons, List.map_nil, hcommon]
  rw [mkSourceEntry]
  simp only [hcommon]
  simp [mkSourceEntry, hidx, strDrop_zero]

/-- Witness for C1: the single input `a.js` with output directory
`/cwd/docs` produces exactly `/cwd/docs/a.html`. -/
theorem claim_C1_witness :
    resolveSources demoFs "/cwd" 10 ["a.js"] optsW =
      .ok [{ full := "/cwd/a.js", out := "/cwd/docs/a.html"
             name := "a.js", isIndex := false }] :=
  claim_C1 demoFs "/cwd" 9 "a.js" optsW "var x;" rfl (by simp [optsW])

/-- C7: every successful source resolution yields pairwise-distinct
absolute `full` paths and at most one `isIndex` entry; and when two
input arguments reach the same absolute file, they collapse without
error into a single entry whose display name comes from the later
argument. -/
theorem claim_C7 (fs : FsEntry) (cwd : String) :
    (∀ (fuel : Nat) (paths : List String) (opts : Opts)
        (entries : List SourceEntry),
      resolveSources fs cwd fuel paths opts = .ok entries →
      (entries.map (fun e => e.full)).Nodup ∧
      (entries.filter (fun e => e.isIndex)).length ≤ 1) ∧
    (∀ (fuel : Nat) (deep : Bool) (p1 p2 : String) (c : String),
      pathResolve cwd (pathNormalize p1) = pathResolve cwd (pathNormalize p2) →
      lookupFs fs (pathResolve cwd (pathNormalize p2)) = some (.file c) →
      cleanPaths fs cwd (fuel + 2) [p1, p2] deep =
        .ok [(pathResolve cwd (pathNormalize p2),
              basename (pathNormalize p2))]) := by
  constructor
  · intro fuel paths opts entries h
    rw [resolveSources] at h
    split at h
    · cases h
    · rename_i cleaned heq
      split at h
      · cases h
      · injection h with h
        subst h
        have hnd : (cleaned.map Prod.fst).Nodup :=
          cleanPathsW_nodup fs cwd opts.recursive fuel _ [] cleaned
            (by simp) heq
        constructor
        · have : (cleaned.map (mkSourceEntry opts
              (strDrop (commonDirSpec (cleaned.map (fun pr => pr.2))) 1))).map
              (fun e => e.full) = cleaned.map Prod.fst := by
            rw [List.map_map]
            rfl
          rw [this]
          exact hnd
        · exact filter_index_le_one opts _ cleaned hnd
  · intro fuel deep p1 p2 c h1 h2
    have hl1 : lookupFs fs (pathResolve cwd (pathNormalize p1)) =
        some (.file c) := by
      rw [h1]
      exact h2
    simp [cleanPaths, cleanPathsW, Option.or, hl1, h2, objSet, h1]

/-- Witness for C7: the same file reached as `a.js` and `./a.js`
collapses to a single entry. -/
theorem claim_C7_witness :
    cleanPaths demoFs "/cwd" 10 ["a.js", "./a.js"] false =
      .ok [(pathResolve "/cwd" (pathNormalize "./a.js"),
            basename (pathNormalize "./a.js"))] :=
  (claim_C7 demoFs "/cwd").2 8 false "a.js" "./a.js" "var x;" rfl rfl

/-- C8: an input path that does not exist makes the run fail during
source resolution, before the output directory is created and before
any file is written: the run's filesystem-write trace is empty, and
the error is the not-found error (or, on a filesystem whose listings
make the JS traversal diverge, the divergence marker). -/
theorem claim_C8 (fs : FsEntry) (cwd : String) (fuel : Nat)
    (dox : String → List Comment) (ext : RenderExt)
    (paths : List String) (opts : Opts)
    (h : ∃ p ∈ paths,
      lookupFs fs (pathResolve cwd (pathNormalize p)) = none) :
    (document fs cwd fuel dox ext paths opts).1 = [] ∧
    ∃ e, (document fs cwd fuel dox ext paths opts).2 = some e ∧
      (e = Err.pathNotFound ∨ e = Err.outOfFuel) := by
  rcases h with ⟨p, hp, hl⟩
  have hm : ∀ m, cleanPathsW fs cwd opts.recursive fuel
      (paths.map (fun p => ⟨p, none, none⟩)) [] ≠ .ok m :=
    cleanPathsW_missing fs cwd opts.recursive fuel _ []
      ⟨⟨p, none, none⟩, List.mem_map_of_mem _ hp, rfl, hl⟩
  cases hres : cleanPathsW fs cwd opts.recursive fuel
      (paths.map (fun p => ⟨p, none, none⟩)) [] with
  | ok m => exact absurd hres (hm m)
  | error e =>
    have he := cleanPathsW_error_cases fs cwd opts.recursive fuel _ [] e hres
    have hdoc : document fs cwd fuel dox ext paths opts = ([], some e) := by
      simp [document, resolveSources, cleanPaths, hres]
    rw [hdoc]
    exact ⟨rfl, e, rfl, he⟩

/-- Witness for C8: a run on the missing input `nope.js` writes nothing
and fails. -/
theorem claim_C8_witness :
    (document demoFs "/cwd" 10 doxC2 extW ["nope.js"] optsW).1 = [] ∧
    ∃ e, (document demoFs "/cwd" 10 doxC2 extW ["nope.js"] optsW).2 = some e ∧
      (e = Err.pathNotFound ∨ e = Err.outOfFuel) :=
  claim_C8 demoFs "/cwd" 10 doxC2 extW ["nope.js"] optsW
    ⟨"nope.js", by simp, rfl⟩

/-- Witness for C3: the top-level directory `d` is expanded even with
`recursive = false`. -/
theorem claim_C3_witness :
    cleanPathsW demoFs "/cwd" false 10 [⟨"d", none, none⟩] [] =
      match cleanPathsW demoFs "/cwd" false 9
          ([("f.js", FsEntry.file "f"),
            ("s", FsEntry.dir [("g.js", FsEntry.file "g")])].map
            (fun e => ⟨pathJoin (pathNormalize "d") e.1, some e.2,
              some (pathNormalize "d")⟩)) [] with
      | .error e => .error e
      | .ok memo' => cleanPathsW demoFs "/cwd" false 9 [] memo' :=
  (claim_C3 demoFs "/cwd" 9 "d" [] []
    [("f.js", FsEntry.file "f"),
     ("s", FsEntry.dir [("g.js", FsEntry.file "g")])]).1 false rfl

end Doxxo
